import Mathlib

/-!
Shallow embedding of the crossword CSP generator
(`src/crossword/generate.py`, class `CrosswordCreator`) together with the
grid model it depends on (class `Crossword` of the repository's `crossword`
module), and a verification of its consistency engine and search.
-/

/-- Modelled from the spec: the direction of a word slot (spec section 3,
`Variable.direction`, ACROSS or DOWN); the `crossword` module that defines it
is not under `src/`. -/
inductive Direction
  | across
  | down
deriving DecidableEq, Repr

/-- Modelled from the spec: a vocabulary word, a string used through its
characters. -/
abbrev Word := List Char

/-- Modelled from the spec: one contiguous word slot (class `Variable` of the
repository's `crossword` module, not under `src/`): starting row `i`, starting
column `j`, a direction and a length; identity is structural (spec section 3). -/
structure Variable where
  i : Nat
  j : Nat
  direction : Direction
  length : Nat
deriving DecidableEq, Repr

/-- Modelled from the spec: the grid model (class `Crossword` of the
repository's `crossword` module, not under `src/`): the fixed variable set,
the vocabulary, and the precomputed overlap relation kept as a lookup table
over ordered pairs (spec sections 3 and 4.1). -/
structure Crossword where
  vars : List Variable
  words : List Word
  overlapList : List (Variable × Variable × Nat × Nat)

/-- Modelled from the spec: `crossword.overlaps[x, y]` (spec section 3,
"Overlap relation"): the pair `(ix, iy)` of in-word indices constrained to
agree, or `none` for pairs that do not intersect. -/
def Crossword.overlaps (c : Crossword) (x y : Variable) : Option (Nat × Nat) :=
  (c.overlapList.find? (fun e => e.1 == x && e.2.1 == y)).map (fun e => e.2.2)

/-- Modelled from the spec: well-formedness of the grid model that the solver
assumes (spec sections 4.1 and 7): the variable list has no duplicates, and
every overlap entry relates two distinct listed variables, is mirrored with
the reversed index pair, and its indices lie within the two slot lengths. -/
def Crossword.Wf (c : Crossword) : Prop :=
  c.vars.Nodup ∧
  ∀ e ∈ c.overlapList,
    e.1 ∈ c.vars ∧ e.2.1 ∈ c.vars ∧ e.1 ≠ e.2.1 ∧
    c.overlaps e.2.1 e.1 = some (e.2.2.2, e.2.2.1) ∧
    e.2.2.1 < e.1.length ∧ e.2.2.2 < e.2.1.length

/-- Modelled from the spec: `crossword.neighbors(v)` (spec section 3,
"Neighbor set"): all other variables sharing a defined overlap with `v`. -/
def Crossword.neighbors (c : Crossword) (v : Variable) : List Variable :=
  c.vars.filter (fun u => !(u == v) && (c.overlaps u v).isSome)

/-- The domain store `self.domains` of `CrosswordCreator`. -/
abbrev Domains := Variable → List Word

/-- Pointwise update of the domain store (mutation of `self.domains[x]`). -/
def updateDom (d : Domains) (x : Variable) (l : List Word) : Domains :=
  fun v => if v = x then l else d v

/-- `CrosswordCreator.__init__`: every variable starts with a copy of the
vocabulary. -/
def initialDomains (c : Crossword) : Domains := fun _ => c.words

/-- `CrosswordCreator.enforce_node_consistency`: remove from each domain the
words whose length differs from the variable's length. -/
def enforce_node_consistency (d : Domains) : Domains :=
  fun v => (d v).filter (fun w => v.length == w.length)

/-- `CrosswordCreator.revise`: collect in `toRemove` every word of the domain
of `x` with no matching word in the domain of `y` at the overlap, then remove
them; returns whether anything was removed together with the updated store.
Character accesses out of range, which would raise in the source, are
embedded with a default character; `reviseChecked` below keeps the raw,
possibly failing accesses. -/
def revise (c : Crossword) (d : Domains) (x y : Variable) : Bool × Domains :=
  match c.overlaps x y with
  | none => (false, d)
  | some (ix, iy) =>
    let toRemove := (d x).filter
      (fun wx => !((d y).any (fun wy => wy.getD iy ' ' == wx.getD ix ' ')))
    (!toRemove.isEmpty,
      updateDom d x ((d x).filter (fun wx => !(toRemove.contains wx))))

/-- Inner loop of `CrosswordCreator.revise` with the source's raw character
accesses: scan the domain of `y` for a word supporting `ch` at index `iy`,
stopping at the first hit; `none` when an index is out of range (an
IndexError in the source). -/
def findSupportChecked (dy : List Word) (iy : Nat) (ch : Char) : Option Bool :=
  match dy with
  | [] => some false
  | wy :: rest =>
    match wy.get? iy with
    | none => none
    | some c2 => if c2 == ch then some true else findSupportChecked rest iy ch

/-- Outer loop of `CrosswordCreator.revise` with raw character accesses:
the `toRemove` list, or `none` when an access is out of range. -/
def toRemoveChecked (dx dy : List Word) (ix iy : Nat) : Option (List Word) :=
  match dx with
  | [] => some []
  | wx :: rest =>
    match wx.get? ix with
    | none => none
    | some ch =>
      match findSupportChecked dy iy ch with
      | none => none
      | some true => toRemoveChecked rest dy ix iy
      | some false => (toRemoveChecked rest dy ix iy).map (fun l => wx :: l)

/-- `CrosswordCreator.revise` with the source's raw character indexing:
`none` models an IndexError escaping the call. -/
def reviseChecked (c : Crossword) (d : Domains) (x y : Variable) :
    Option (Bool × Domains) :=
  match c.overlaps x y with
  | none => some (false, d)
  | some (ix, iy) =>
    (toRemoveChecked (d x) (d y) ix iy).map (fun rem =>
      (!rem.isEmpty, updateDom d x ((d x).filter (fun wx => !(rem.contains wx)))))

/-- Arc re-insertion in `CrosswordCreator.ac3`: for every neighbour of `x`,
append `(neighbour, x)` and then `(x, neighbour)`. The queue is popped from
the end in the source, so it is embedded as a stack whose head is popped
next. -/
def pushArcs (c : Crossword) (x : Variable) (q : List (Variable × Variable)) :
    List (Variable × Variable) :=
  (c.neighbors x).foldl (fun acc n => (x, n) :: (n, x) :: acc) q

/-- Default seed of `CrosswordCreator.ac3`: both directions of every neighbour
pair of the whole problem. -/
def allArcs (c : Crossword) : List (Variable × Variable) :=
  c.vars.foldl
    (fun acc v => (c.neighbors v).foldl (fun acc n => (n, v) :: (v, n) :: acc) acc) []

/-- Worklist loop of `CrosswordCreator.ac3` with explicit fuel (`none` = fuel
ran out). `n` counts the revisions that changed a domain; when a domain is
emptied the loop returns `false` at once, and an exhausted queue returns
whether `n ≠ 0`. -/
def ac3loop (c : Crossword) : Nat → List (Variable × Variable) → Domains → Nat →
    Option (Bool × Domains)
  | _, [], d, n => some (n != 0, d)
  | 0, _ :: _, _, _ => none
  | fuel + 1, (x, y) :: q, d, n =>
    let r := revise c d x y
    if r.1 then
      if (r.2 x).isEmpty then some (false, r.2)
      else ac3loop c fuel (pushArcs c x q) r.2 (n + 1)
    else ac3loop c fuel q d n

/-- `CrosswordCreator.ac3`: seed the worklist (all arcs when none is given)
and run the loop. -/
def ac3 (c : Crossword) (fuel : Nat) (arcs : Option (List (Variable × Variable)))
    (d : Domains) : Option (Bool × Domains) :=
  ac3loop c fuel (match arcs with | none => allArcs c | some q => q) d 0

/-- Final domain store of an `ac3` run (the run's input when fuel ran out). -/
def ac3doms (c : Crossword) (fuel : Nat) (arcs : Option (List (Variable × Variable)))
    (d : Domains) : Domains :=
  match ac3 c fuel arcs d with
  | some (_, d1) => d1
  | none => d

/-- Return value of an `ac3` run (`none` when fuel ran out). -/
def ac3flag (c : Crossword) (fuel : Nat) (arcs : Option (List (Variable × Variable)))
    (d : Domains) : Option Bool :=
  (ac3 c fuel arcs d).map Prod.fst

/-- A Python dict from variables to words, as an insertion-ordered association
list with distinct keys. -/
abbrev Assignment := List (Variable × Word)

/-- Dict lookup `assignment[v]`. -/
def assignLookup (a : Assignment) (v : Variable) : Option Word :=
  (a.find? (fun kv => kv.1 == v)).map Prod.snd

/-- Dict store `assignment[var] = value`: update in place, or append a new
key at the end. -/
def dictInsert (a : Assignment) (v : Variable) (w : Word) : Assignment :=
  if a.any (fun kv => kv.1 == v) then
    a.map (fun kv => if kv.1 == v then (v, w) else kv)
  else a ++ [(v, w)]

/-- Dict delete `del assignment[var]`. -/
def dictRemove (a : Assignment) (v : Variable) : Assignment :=
  a.filter (fun kv => !(kv.1 == v))

/-- `CrosswordCreator.assignment_complete`: as many entries as crossword
variables. -/
def assignment_complete (c : Crossword) (a : Assignment) : Bool :=
  a.length == c.vars.length

/-- Neighbour checks of one iteration of `CrosswordCreator.consistent`:
every assigned neighbour agrees on the overlapped characters. -/
def neighborsOk (c : Crossword) (full : Assignment) (v : Variable) (w : Word) :
    Bool :=
  (c.neighbors v).all (fun n =>
    match assignLookup full n with
    | none => true
    | some wn =>
      match c.overlaps v n with
      | some p => w.getD p.1 ' ' == wn.getD p.2 ' '
      | none => true)

/-- Key loop of `CrosswordCreator.consistent`, with `vals` the set of words
seen so far: fail on a reused word, a length mismatch, or a neighbour
conflict. -/
def consistentAux (c : Crossword) (full : Assignment) :
    List (Variable × Word) → List Word → Bool
  | [], _ => true
  | (v, w) :: rest, vals =>
    if vals.contains w then false
    else if !(v.length == w.length) then false
    else if neighborsOk c full v w then consistentAux c full rest (w :: vals)
    else false

/-- `CrosswordCreator.consistent`. -/
def consistent (c : Crossword) (a : Assignment) : Bool := consistentAux c a a []

/-- Stable insertion into a count-sorted list: the new entry goes after every
entry with a smaller or equal count, as in the stable sort of the source. -/
def insertByCount (x : Nat × Word) : List (Nat × Word) → List (Nat × Word)
  | [] => [x]
  | y :: ys => if x.1 < y.1 then x :: y :: ys else y :: insertByCount x ys

/-- Stable sort of (count, word) pairs by count. -/
def sortByCount (l : List (Nat × Word)) : List (Nat × Word) :=
  l.foldl (fun acc x => insertByCount x acc) []

/-- `CrosswordCreator.order_domain_values`: pair each candidate with the
number of unassigned neighbours whose domain also holds it, and sort stably
by that count. -/
def order_domain_values (c : Crossword) (d : Domains) (var : Variable)
    (a : Assignment) : List Word :=
  let ns := (c.neighbors var).filter (fun n => !(assignLookup a n).isSome)
  let counts := (d var).map (fun val => (ns.countP (fun n => (d n).contains val), val))
  (sortByCount counts).map Prod.snd

/-- `CrosswordCreator.select_unassigned_variable`: scan the variables,
remembering every strict improvement of the minimum domain size, and return
the variable appended last (`listOfVars[-1]`); `none` when every variable is
assigned, where the source would raise an IndexError. -/
def select_unassigned_variable (c : Crossword) (d : Domains) (a : Assignment) :
    Option Variable :=
  let st := c.vars.foldl
    (fun (st : Option Nat × List Variable) var =>
      if (assignLookup a var).isSome then st
      else
        match st.1 with
        | none => (some (d var).length, st.2 ++ [var])
        | some m =>
          if (d var).length < m then (some (d var).length, st.2 ++ [var]) else st)
    (none, [])
  st.2.getLast?

/-- Value loop of `CrosswordCreator.backtrack`: try each candidate in order;
an inconsistent candidate is left in the assignment (the source deletes a
tried value only after a failed recursive call), a failed recursion is
undone. The pair returned holds the result and the assignment as mutated. -/
def tryValues (c : Crossword) (var : Variable)
    (bt : Assignment → Option (Option Assignment × Assignment)) :
    List Word → Assignment → Option (Option Assignment × Assignment)
  | [], a => some (none, a)
  | w :: ws, a =>
    let a1 := dictInsert a var w
    if consistent c a1 then
      match bt a1 with
      | none => none
      | some (some r, a2) => some (some r, a2)
      | some (none, a2) => tryValues c var bt ws (dictRemove a2 var)
    else tryValues c var bt ws a1

/-- `CrosswordCreator.backtrack` with explicit fuel (`none` = fuel ran out):
returns the search result together with the assignment as left by the
mutations of the call. -/
def backtrack (c : Crossword) (doms : Domains) :
    Nat → Assignment → Option (Option Assignment × Assignment)
  | 0, _ => none
  | fuel + 1, a =>
    if assignment_complete c a then some (some a, a)
    else
      match select_unassigned_variable c doms a with
      | none => some (none, a)
      | some var =>
        tryValues c var (backtrack c doms fuel) (order_domain_values c doms var a) a

/-- `CrosswordCreator.solve`: node consistency, then `ac3` with its result
ignored, then backtracking search from the empty assignment. -/
def solve (c : Crossword) (fuel : Nat) : Option (Option Assignment × Assignment) :=
  let d1 := enforce_node_consistency (initialDomains c)
  match ac3 c fuel none d1 with
  | none => none
  | some (_, d2) => backtrack c d2 fuel []

/-- The arc-consistency relation of the spec (section 8): every remaining word
of the domain of `x` has a supporting word in the domain of `y` at the
overlap `(ix, iy)`. -/
def supported (d : Domains) (x y : Variable) (ix iy : Nat) : Prop :=
  ∀ w ∈ d x, ∃ u ∈ d y, u.getD iy ' ' = w.getD ix ' '

/-- Reachable assignment states: distinct keys, all of them crossword
variables. -/
def goodAssign (c : Crossword) (a : Assignment) : Prop :=
  (a.map Prod.fst).Nodup ∧ ∀ kv ∈ a, kv.1 ∈ c.vars

/-! ### Concrete crosswords used as test inputs -/

/-- Word-slot constants for the concrete instances. -/
def vA : Variable := ⟨0, 0, Direction.across, 2⟩
def vB : Variable := ⟨1, 0, Direction.across, 2⟩
def vC : Variable := ⟨2, 0, Direction.across, 2⟩
def vX : Variable := ⟨0, 0, Direction.across, 2⟩
def vY : Variable := ⟨0, 0, Direction.down, 2⟩
def vP : Variable := ⟨0, 0, Direction.across, 3⟩
def vQ : Variable := ⟨0, 1, Direction.down, 3⟩

/-- Vocabulary constants for the concrete instances. -/
def wAA : Word := ['A', 'A']
def wBB : Word := ['B', 'B']
def wCC : Word := ['C', 'C']
def wDD : Word := ['D', 'D']
def wAB : Word := ['A', 'B']
def wBA : Word := ['B', 'A']
def wCAT : Word := ['C', 'A', 'T']
def wTIE : Word := ['T', 'I', 'E']
def wDOG : Word := ['D', 'O', 'G']

/-- Three mutually non-overlapping 2-letter slots sharing a vocabulary, for
exercising the global word-uniqueness constraint of the search. -/
def exC : Crossword := ⟨[vA, vB, vC], [wAA, wCC, wDD], []⟩

/-- Domains for `exC` on which the search fails although a solution exists. -/
def exDoms : Domains := fun v =>
  if v = vA then [wAA, wDD]
  else if v = vB then [wCC, wDD]
  else if v = vC then [wCC, wAA]
  else []

/-- A complete consistent assignment over `exDoms`. -/
def exSol : Assignment := [(vA, wDD), (vB, wCC), (vC, wAA)]

/-- Two crossing 2-letter slots whose words disagree at the shared cell. -/
def c7C : Crossword := ⟨[vX, vY], [wAB, wBA], [(vX, vY, 0, 0), (vY, vX, 0, 0)]⟩

/-- Domains for `c7C`: the overlap has no compatible pair, so `ac3` empties
the domain of `vX`. -/
def d7 : Domains := fun v =>
  if v = vX then [wAB] else if v = vY then [wBA] else []

/-- Three 2-letter slots where only `vB` and `vC` overlap, for exercising the
degree heuristic of variable selection. -/
def c8C : Crossword := ⟨[vA, vB, vC], [wAA, wBB, wCC], [(vB, vC, 0, 0), (vC, vB, 0, 0)]⟩

/-- Singleton domains for `c8C`. -/
def d8 : Domains := fun v =>
  if v = vA then [wAA] else if v = vB then [wBB] else if v = vC then [wCC] else []

/-- Two crossing 3-letter slots sharing their middle cell (spec section 8,
scenario B). -/
def c4C : Crossword := ⟨[vP, vQ], [wCAT, wTIE, wDOG], [(vP, vQ, 1, 1), (vQ, vP, 1, 1)]⟩

/-- Node-consistent domains for `c4C`. -/
def d4 : Domains := fun v =>
  if v = vP then [wCAT, wTIE, wDOG] else if v = vQ then [wCAT, wTIE, wDOG] else []

/-- A single 3-letter slot with a fitting one-word vocabulary. -/
def c3C : Crossword := ⟨[vP], [wCAT], []⟩

/-- Domain store for `c3C`. -/
def d3 : Domains := fun v => if v = vP then [wCAT] else []

/-- An assignment function solving `c4C` over `d4` (both slots may only be
checked against the overlap constraint here). -/
def f4 : Variable → Word := fun _ => wCAT

/-- Domains for `c4C` that `ac3` prunes without emptying: the word CAT loses
its middle-letter support. -/
def d5 : Domains := fun v =>
  if v = vP then [wCAT, wTIE, wDOG] else if v = vQ then [wTIE, wDOG] else []

/-- Raw, not node-consistent domains for `c4C`: indexing the 1-letter word at
the overlap position 1 is out of range. -/
def dRaw : Domains := fun v =>
  if v = vP then [['A']] else if v = vQ then [wBB] else []

instance (c : Crossword) : Decidable c.Wf := by
  unfold Crossword.Wf
  infer_instance

/-! ### Basic facts about the grid model -/

theorem updateDom_same {d : Domains} {x : Variable} {l : List Word} :
    updateDom d x l x = l := by
  simp [updateDom]

theorem updateDom_ne {d : Domains} {x v : Variable} {l : List Word} (h : v ≠ x) :
    updateDom d x l v = d v := by
  simp [updateDom, h]

theorem overlaps_entry {c : Crossword} {x y : Variable} {i j : Nat}
    (h : c.overlaps x y = some (i, j)) : (x, y, i, j) ∈ c.overlapList := by
  unfold Crossword.overlaps at h
  rcases hf : c.overlapList.find? (fun e => e.1 == x && e.2.1 == y) with _ | e
  · rw [hf] at h; simp at h
  · rw [hf] at h
    have hmem := List.mem_of_find?_eq_some hf
    have hp := List.find?_some hf
    simp only [Bool.and_eq_true, beq_iff_eq] at hp
    obtain ⟨a, b, i0, j0⟩ := e
    simp only [Option.map_some'] at h
    have h1 : a = x := hp.1
    have h2 : b = y := hp.2
    have h3 : i0 = i ∧ j0 = j := by
      have h4 := Option.some.inj h
      exact ⟨congrArg Prod.fst h4, congrArg Prod.snd h4⟩
    rw [h1, h2, h3.1, h3.2] at hmem
    exact hmem

theorem wf_symm {c : Crossword} (hwf : c.Wf) {x y : Variable} {i j : Nat}
    (h : c.overlaps x y = some (i, j)) : c.overlaps y x = some (j, i) :=
  (hwf.2 _ (overlaps_entry h)).2.2.2.1

theorem wf_ne {c : Crossword} (hwf : c.Wf) {x y : Variable} {i j : Nat}
    (h : c.overlaps x y = some (i, j)) : x ≠ y :=
  (hwf.2 _ (overlaps_entry h)).2.2.1

theorem wf_memL {c : Crossword} (hwf : c.Wf) {x y : Variable} {i j : Nat}
    (h : c.overlaps x y = some (i, j)) : x ∈ c.vars :=
  (hwf.2 _ (overlaps_entry h)).1

theorem wf_memR {c : Crossword} (hwf : c.Wf) {x y : Variable} {i j : Nat}
    (h : c.overlaps x y = some (i, j)) : y ∈ c.vars :=
  (hwf.2 _ (overlaps_entry h)).2.1

theorem wf_boundL {c : Crossword} (hwf : c.Wf) {x y : Variable} {i j : Nat}
    (h : c.overlaps x y = some (i, j)) : i < x.length :=
  (hwf.2 _ (overlaps_entry h)).2.2.2.2.1

theorem wf_boundR {c : Crossword} (hwf : c.Wf) {x y : Variable} {i j : Nat}
    (h : c.overlaps x y = some (i, j)) : j < y.length :=
  (hwf.2 _ (overlaps_entry h)).2.2.2.2.2

theorem mem_neighbors {c : Crossword} {u v : Variable} :
    u ∈ c.neighbors v ↔ u ∈ c.vars ∧ u ≠ v ∧ (c.overlaps u v).isSome := by
  unfold Crossword.neighbors
  simp only [List.mem_filter, Bool.and_eq_true, Bool.not_eq_true', beq_eq_false_iff_ne,
    ne_eq, and_assoc]

/-! ### Facts about `revise` -/

theorem contains_eq_mem {α : Type} [BEq α] [LawfulBEq α] {l : List α} {w : α} :
    l.contains w = true ↔ w ∈ l :=
  List.elem_iff

theorem filter_not_contains_filter (l : List Word) (p : Word → Bool) :
    (l.filter (fun w => !((l.filter (fun v => !(p v))).contains w))) = l.filter p := by
  apply List.filter_congr
  intro w hw
  rcases hp : p w with _ | _
  · have hmem : w ∈ l.filter (fun v => !(p v)) :=
      List.mem_filter.mpr ⟨hw, by simp [hp]⟩
    have hc : (l.filter (fun v => !(p v))).contains w = true := contains_eq_mem.mpr hmem
    simp only [hc, Bool.not_true, hp]
  · have hmem : w ∉ l.filter (fun v => !(p v)) := by
      intro hm
      have h2 := (List.mem_filter.mp hm).2
      simp [hp] at h2
    have hc : (l.filter (fun v => !(p v))).contains w = false := by
      rcases hb : (l.filter (fun v => !(p v))).contains w with _ | _
      · rfl
      · exact absurd (contains_eq_mem.mp hb) hmem
    simp only [hc, Bool.not_false, hp]

theorem revise_none {c : Crossword} {d : Domains} {x y : Variable}
    (h : c.overlaps x y = none) : revise c d x y = (false, d) := by
  unfold revise
  rw [h]

theorem revise_some {c : Crossword} {d : Domains} {x y : Variable} {ix iy : Nat}
    (h : c.overlaps x y = some (ix, iy)) :
    revise c d x y =
      (!((d x).filter
          (fun wx => !((d y).any (fun wy => wy.getD iy ' ' == wx.getD ix ' ')))).isEmpty,
       updateDom d x ((d x).filter
          (fun wx => (d y).any (fun wy => wy.getD iy ' ' == wx.getD ix ' ')))) := by
  unfold revise
  rw [h]
  dsimp only
  rw [filter_not_contains_filter (d x) (fun wx => (d y).any (fun wy => wy.getD iy ' ' == wx.getD ix ' '))]

theorem revise_snd_x {c : Crossword} {d : Domains} {x y : Variable} {ix iy : Nat}
    (h : c.overlaps x y = some (ix, iy)) :
    (revise c d x y).2 x =
      (d x).filter (fun wx => (d y).any (fun wy => wy.getD iy ' ' == wx.getD ix ' ')) := by
  rw [revise_some h]
  exact updateDom_same

theorem revise_snd_ne {c : Crossword} {d : Domains} {x y v : Variable} {ix iy : Nat}
    (h : c.overlaps x y = some (ix, iy)) (hvx : v ≠ x) :
    (revise c d x y).2 v = d v := by
  rw [revise_some h]
  exact updateDom_ne hvx

theorem revise_sublist (c : Crossword) (d : Domains) (x y v : Variable) :
    ((revise c d x y).2 v).Sublist (d v) := by
  rcases ho : c.overlaps x y with _ | ⟨ix, iy⟩
  · rw [revise_none ho]
  · rw [revise_some ho]
    dsimp only
    by_cases hv : v = x
    · subst hv
      rw [updateDom_same]
      exact List.filter_sublist _
    · rw [updateDom_ne hv]

theorem supported_iff_all_any {d : Domains} {x y : Variable} {ix iy : Nat} :
    supported d x y ix iy ↔
      ∀ w ∈ d x, ((d y).any (fun wy => wy.getD iy ' ' == w.getD ix ' ')) = true := by
  unfold supported
  constructor
  · intro h w hw
    obtain ⟨u, hu, he⟩ := h w hw
    exact List.any_eq_true.mpr ⟨u, hu, beq_iff_eq.mpr he⟩
  · intro h w hw
    obtain ⟨u, hu, he⟩ := List.any_eq_true.mp (h w hw)
    exact ⟨u, hu, beq_iff_eq.mp he⟩

theorem revise_fst_false_supported {c : Crossword} {d : Domains} {x y : Variable}
    {ix iy : Nat} (h : c.overlaps x y = some (ix, iy))
    (hf : (revise c d x y).1 = false) : supported d x y ix iy := by
  rw [revise_some h] at hf
  simp only [Bool.not_eq_false'] at hf
  have hnil := List.isEmpty_iff.mp hf
  rw [supported_iff_all_any]
  intro w hw
  have h3 := List.filter_eq_nil_iff.mp hnil w hw
  simpa using h3

theorem revise_supported_after {c : Crossword} {d : Domains} {x y : Variable}
    {ix iy : Nat} (hxy : x ≠ y) (h : c.overlaps x y = some (ix, iy)) :
    supported ((revise c d x y).2) x y ix iy := by
  rw [supported_iff_all_any]
  intro w hw
  rw [revise_snd_x h] at hw
  have hp := (List.mem_filter.mp hw).2
  rw [revise_snd_ne h (Ne.symm hxy)]
  exact hp

theorem supported_mono {d d1 : Domains} {a b : Variable} {ia ib : Nat}
    (hsub : ∀ w, w ∈ d1 a → w ∈ d a) (hb : d1 b = d b)
    (h : supported d a b ia ib) : supported d1 a b ia ib := by
  intro w hw
  rw [hb]
  exact h w (hsub w hw)

/-! ### The `ac3` worklist -/

theorem mem_consfold (f g : Variable → Variable × Variable) (l : List Variable) :
    ∀ (q : List (Variable × Variable)) (p : Variable × Variable),
      p ∈ l.foldl (fun acc n => f n :: g n :: acc) q ↔
        p ∈ q ∨ ∃ n ∈ l, p = f n ∨ p = g n := by
  induction l with
  | nil =>
    intro q p
    simp
  | cons a l ih =>
    intro q p
    rw [List.foldl_cons, ih]
    simp only [List.mem_cons]
    constructor
    · rintro ((h | h | h) | ⟨n, hn, h⟩)
      · exact Or.inr ⟨a, Or.inl rfl, Or.inl h⟩
      · exact Or.inr ⟨a, Or.inl rfl, Or.inr h⟩
      · exact Or.inl h
      · exact Or.inr ⟨n, Or.inr hn, h⟩
    · rintro (h | ⟨n, hn, h⟩)
      · exact Or.inl (Or.inr (Or.inr h))
      · rcases hn with rfl | hn
        · rcases h with h | h
          · exact Or.inl (Or.inl h)
          · exact Or.inl (Or.inr (Or.inl h))
        · exact Or.inr ⟨n, hn, h⟩

theorem mem_pushArcs {c : Crossword} {x : Variable} {q : List (Variable × Variable)}
    {p : Variable × Variable} :
    p ∈ pushArcs c x q ↔ p ∈ q ∨ ∃ n ∈ c.neighbors x, p = (x, n) ∨ p = (n, x) :=
  mem_consfold (fun n => (x, n)) (fun n => (n, x)) (c.neighbors x) q p

theorem mem_allArcsAux (c : Crossword) (l : List Variable) :
    ∀ (q : List (Variable × Variable)) (p : Variable × Variable),
      p ∈ l.foldl
          (fun acc v => (c.neighbors v).foldl (fun acc n => (n, v) :: (v, n) :: acc) acc) q ↔
        p ∈ q ∨ ∃ v ∈ l, ∃ n ∈ c.neighbors v, p = (n, v) ∨ p = (v, n) := by
  induction l with
  | nil =>
    intro q p
    simp
  | cons a l ih =>
    intro q p
    rw [List.foldl_cons, ih,
      mem_consfold (fun n => (n, a)) (fun n => (a, n)) (c.neighbors a) q p]
    constructor
    · rintro ((h | h) | ⟨v, hv, h⟩)
      · exact Or.inl h
      · exact Or.inr ⟨a, List.mem_cons_self a l, h⟩
      · exact Or.inr ⟨v, List.mem_cons_of_mem a hv, h⟩
    · rintro (h | ⟨v, hv, h⟩)
      · exact Or.inl (Or.inl h)
      · rcases List.mem_cons.mp hv with rfl | hv2
        · exact Or.inl (Or.inr h)
        · exact Or.inr ⟨v, hv2, h⟩

theorem mem_allArcs {c : Crossword} {p : Variable × Variable} :
    p ∈ allArcs c ↔ ∃ v ∈ c.vars, ∃ n ∈ c.neighbors v, p = (n, v) ∨ p = (v, n) := by
  unfold allArcs
  rw [mem_allArcsAux]
  simp

theorem ac3loop_sublist (c : Crossword) :
    ∀ (fuel : Nat) (q : List (Variable × Variable)) (d : Domains) (n : Nat)
      (b : Bool) (d1 : Domains),
      ac3loop c fuel q d n = some (b, d1) → ∀ v, (d1 v).Sublist (d v) := by
  intro fuel
  induction fuel with
  | zero =>
    intro q d n b d1 h v
    cases q with
    | nil =>
      simp only [ac3loop, Option.some.injEq, Prod.mk.injEq] at h
      rw [← h.2]
    | cons hd tl =>
      simp [ac3loop] at h
  | succ fuel ih =>
    intro q d n b d1 h v
    cases q with
    | nil =>
      simp only [ac3loop, Option.some.injEq, Prod.mk.injEq] at h
      rw [← h.2]
    | cons hd tl =>
      obtain ⟨x, y⟩ := hd
      simp only [ac3loop] at h
      split at h
      · split at h
        · simp only [Option.some.injEq, Prod.mk.injEq] at h
          rw [← h.2]
          exact revise_sublist c d x y v
        · exact (ih _ _ _ _ _ h v).trans (revise_sublist c d x y v)
      · exact ih _ _ _ _ _ h v

theorem revise_invariant_step (c : Crossword) (hwf : c.Wf) {d : Domains}
    {a b0 : Variable} {ia ib : Nat} (hov : c.overlaps a b0 = some (ia, ib))
    (tl : List (Variable × Variable))
    (hinv : ∀ x y ix iy, c.overlaps x y = some (ix, iy) →
      (x, y) ∈ (a, b0) :: tl ∨ supported d x y ix iy) :
    ∀ x y ix iy, c.overlaps x y = some (ix, iy) →
      (x, y) ∈ pushArcs c a tl ∨ supported ((revise c d a b0).2) x y ix iy := by
  intro x y ix iy ho2
  by_cases hxa : x = a
  · by_cases hyb : y = b0
    · right
      rw [hxa, hyb]
      rw [hxa, hyb, hov] at ho2
      have hp := Option.some.inj ho2
      injection hp with hi hj
      rw [← hi, ← hj]
      exact revise_supported_after (wf_ne hwf hov) hov
    · rcases hinv x y ix iy ho2 with hq | hs
      · rcases List.mem_cons.mp hq with heq | hq2
        · exact absurd (congrArg Prod.snd heq) hyb
        · exact Or.inl (mem_pushArcs.mpr (Or.inl hq2))
      · right
        refine supported_mono ?_ ?_ hs
        · intro w hw
          rw [hxa] at hw ⊢
          exact (revise_sublist c d a b0 a).subset hw
        · refine revise_snd_ne hov ?_
          intro hya
          rw [hxa, hya] at ho2
          exact (wf_ne hwf ho2) rfl
  · by_cases hya : y = a
    · left
      refine mem_pushArcs.mpr (Or.inr ⟨x, ?_, Or.inr (by rw [hya])⟩)
      refine mem_neighbors.mpr ⟨wf_memL hwf ho2, hxa, ?_⟩
      rw [← hya, ho2]
      rfl
    · rcases hinv x y ix iy ho2 with hq | hs
      · rcases List.mem_cons.mp hq with heq | hq2
        · exact absurd (congrArg Prod.fst heq) hxa
        · exact Or.inl (mem_pushArcs.mpr (Or.inl hq2))
      · right
        refine supported_mono ?_ ?_ hs
        · intro w hw
          rwa [revise_snd_ne hov hxa] at hw
        · exact revise_snd_ne hov hya

theorem ac3loop_sound (c : Crossword) (hwf : c.Wf) :
    ∀ (fuel : Nat) (q : List (Variable × Variable)) (d : Domains) (n : Nat)
      (bb : Bool) (d1 : Domains),
      (∀ x y ix iy, c.overlaps x y = some (ix, iy) → (x, y) ∈ q ∨ supported d x y ix iy) →
      ac3loop c fuel q d n = some (bb, d1) →
      (∀ v ∈ c.vars, d1 v ≠ []) →
      ∀ x y ix iy, c.overlaps x y = some (ix, iy) → supported d1 x y ix iy := by
  intro fuel
  induction fuel with
  | zero =>
    intro q d n bb d1 hinv h hne x y ix iy ho
    cases q with
    | nil =>
      simp only [ac3loop, Option.some.injEq, Prod.mk.injEq] at h
      rw [← h.2]
      rcases hinv x y ix iy ho with hq | hs
      · exact absurd hq (List.not_mem_nil _)
      · exact hs
    | cons hd tl =>
      simp [ac3loop] at h
  | succ fuel ih =>
    intro q d n bb d1 hinv h hne x y ix iy ho
    cases q with
    | nil =>
      simp only [ac3loop, Option.some.injEq, Prod.mk.injEq] at h
      rw [← h.2]
      rcases hinv x y ix iy ho with hq | hs
      · exact absurd hq (List.not_mem_nil _)
      · exact hs
    | cons hd tl =>
      obtain ⟨a, b0⟩ := hd
      simp only [ac3loop] at h
      split at h
      · rename_i hr
        rcases hov : c.overlaps a b0 with _ | ⟨ia, ib⟩
        · rw [revise_none hov] at hr
          simp at hr
        split at h
        · rename_i hemp
          exfalso
          simp only [Option.some.injEq, Prod.mk.injEq] at h
          have hda : d1 a = [] := by
            rw [← h.2]
            exact List.isEmpty_iff.mp hemp
          exact hne a (wf_memL hwf hov) hda
        · exact ih (pushArcs c a tl) ((revise c d a b0).2) (n + 1) bb d1
            (revise_invariant_step c hwf hov tl hinv) h hne x y ix iy ho
      · rename_i hr
        refine ih tl d n bb d1 ?_ h hne x y ix iy ho
        intro x2 y2 ix2 iy2 ho2
        rcases hinv x2 y2 ix2 iy2 ho2 with hq | hs
        · rcases List.mem_cons.mp hq with heq | hq2
          · right
            have h1 : x2 = a := congrArg Prod.fst heq
            have h2 : y2 = b0 := congrArg Prod.snd heq
            have hrf : (revise c d x2 y2).1 = false := by
              rw [h1, h2]
              simp only [Bool.not_eq_true] at hr
              exact hr
            exact revise_fst_false_supported ho2 hrf
          · exact Or.inl hq2
        · exact Or.inr hs

theorem pushArcs_wf {c : Crossword} {x : Variable} {q : List (Variable × Variable)}
    (hx : x ∈ c.vars) (hq : ∀ p ∈ q, p.1 ∈ c.vars ∧ p.2 ∈ c.vars) :
    ∀ p ∈ pushArcs c x q, p.1 ∈ c.vars ∧ p.2 ∈ c.vars := by
  intro p hp
  rcases mem_pushArcs.mp hp with hin | ⟨n, hn, hpn | hpn⟩
  · exact hq p hin
  · rw [hpn]
    exact ⟨hx, (mem_neighbors.mp hn).1⟩
  · rw [hpn]
    exact ⟨(mem_neighbors.mp hn).1, hx⟩

theorem ac3loop_preserves (c : Crossword) (f : Variable → Word)
    (hagree : ∀ x ∈ c.vars, ∀ y ∈ c.vars,
      ((c.overlaps x y).all fun p => (f x).getD p.1 ' ' == (f y).getD p.2 ' ') = true) :
    ∀ (fuel : Nat) (q : List (Variable × Variable)) (d : Domains) (n : Nat)
      (bb : Bool) (d1 : Domains),
      (∀ p ∈ q, p.1 ∈ c.vars ∧ p.2 ∈ c.vars) →
      (∀ v ∈ c.vars, f v ∈ d v) →
      ac3loop c fuel q d n = some (bb, d1) →
      ∀ v ∈ c.vars, f v ∈ d1 v := by
  intro fuel
  induction fuel with
  | zero =>
    intro q d n bb d1 hq hmem h v hv
    cases q with
    | nil =>
      simp only [ac3loop, Option.some.injEq, Prod.mk.injEq] at h
      rw [← h.2]
      exact hmem v hv
    | cons hd tl =>
      simp [ac3loop] at h
  | succ fuel ih =>
    intro q d n bb d1 hq hmem h v hv
    cases q with
    | nil =>
      simp only [ac3loop, Option.some.injEq, Prod.mk.injEq] at h
      rw [← h.2]
      exact hmem v hv
    | cons hd tl =>
      obtain ⟨x, y⟩ := hd
      have hxv : x ∈ c.vars := (hq (x, y) (List.mem_cons_self _ _)).1
      have hyv : y ∈ c.vars := (hq (x, y) (List.mem_cons_self _ _)).2
      simp only [ac3loop] at h
      have hmem2 : ∀ u ∈ c.vars, f u ∈ (revise c d x y).2 u := by
        intro u hu
        rcases hov : c.overlaps x y with _ | ⟨ix, iy⟩
        · rw [revise_none hov]
          exact hmem u hu
        · by_cases hux : u = x
          · rw [hux, revise_snd_x hov]
            refine List.mem_filter.mpr ⟨hmem x hxv, ?_⟩
            refine List.any_eq_true.mpr ⟨f y, hmem y hyv, ?_⟩
            have h3 := hagree x hxv y hyv
            rw [hov] at h3
            have h4 : ((f x).getD ix ' ' == (f y).getD iy ' ') = true := h3
            exact beq_iff_eq.mpr (beq_iff_eq.mp h4).symm
          · rw [revise_snd_ne hov hux]
            exact hmem u hu
      split at h
      · split at h
        · simp only [Option.some.injEq, Prod.mk.injEq] at h
          rw [← h.2]
          exact hmem2 v hv
        · exact ih (pushArcs c x tl) ((revise c d x y).2) (n + 1) bb d1
            (pushArcs_wf hxv (fun p hp => hq p (List.mem_cons_of_mem _ hp)))
            hmem2 h v hv
      · exact ih tl d n bb d1 (fun p hp => hq p (List.mem_cons_of_mem _ hp)) hmem h v hv

theorem revise_true_length {c : Crossword} {d : Domains} {x y : Variable}
    {ix iy : Nat} (h : c.overlaps x y = some (ix, iy))
    (hr : (revise c d x y).1 = true) :
    ((revise c d x y).2 x).length < (d x).length := by
  rw [revise_some h] at hr
  simp only [Bool.not_eq_true'] at hr
  have hne := List.isEmpty_eq_false.mp hr
  obtain ⟨w, hw⟩ := List.exists_mem_of_ne_nil _ hne
  have hw2 := List.mem_filter.mp hw
  have hpw : ((d y).any (fun wy => wy.getD iy ' ' == w.getD ix ' ')) = false := by
    have h3 := hw2.2
    simp only [Bool.not_eq_true'] at h3
    exact h3
  rw [revise_snd_x h]
  have hsub := List.filter_sublist (l := d x)
    (p := fun wx => (d y).any (fun wy => wy.getD iy ' ' == wx.getD ix ' '))
  refine Nat.lt_of_le_of_ne hsub.length_le ?_
  intro hlen
  have heq := hsub.eq_of_length hlen
  have hwmem : w ∈ (d x).filter
      (fun wx => (d y).any (fun wy => wy.getD iy ' ' == wx.getD ix ' ')) := by
    rw [heq]
    exact hw2.1
  have := (List.mem_filter.mp hwmem).2
  rw [hpw] at this
  exact Bool.false_ne_true this

theorem revise_true_overlap {c : Crossword} {d : Domains} {x y : Variable}
    (hr : (revise c d x y).1 = true) :
    ∃ ix iy, c.overlaps x y = some (ix, iy) := by
  rcases hov : c.overlaps x y with _ | ⟨ix, iy⟩
  · rw [revise_none hov] at hr
    simp at hr
  · exact ⟨ix, iy, rfl⟩

theorem ac3loop_flag_true (c : Crossword) :
    ∀ (fuel : Nat) (q : List (Variable × Variable)) (d : Domains) (n : Nat)
      (d1 : Domains),
      ac3loop c fuel q d n = some (true, d1) →
      n ≠ 0 ∨ ∃ v, (d1 v).length < (d v).length := by
  intro fuel
  induction fuel with
  | zero =>
    intro q d n d1 h
    cases q with
    | nil =>
      simp only [ac3loop, Option.some.injEq, Prod.mk.injEq] at h
      left
      simpa using h.1.symm
    | cons hd tl =>
      simp [ac3loop] at h
  | succ fuel ih =>
    intro q d n d1 h
    cases q with
    | nil =>
      simp only [ac3loop, Option.some.injEq, Prod.mk.injEq] at h
      left
      simpa using h.1.symm
    | cons hd tl =>
      obtain ⟨x, y⟩ := hd
      simp only [ac3loop] at h
      split at h
      · rename_i hr
        split at h
        · simp at h
        · right
          obtain ⟨ix, iy, hov⟩ := revise_true_overlap hr
          refine ⟨x, Nat.lt_of_le_of_lt ?_ (revise_true_length hov hr)⟩
          exact (ac3loop_sublist c fuel _ _ _ _ _ h x).length_le
      · exact ih tl d n d1 h

theorem ac3loop_flag_false (c : Crossword) :
    ∀ (fuel : Nat) (q : List (Variable × Variable)) (d : Domains) (n : Nat)
      (d1 : Domains),
      ac3loop c fuel q d n = some (false, d1) →
      (n = 0 ∧ ∀ v, d1 v = d v) ∨ ∃ v, d1 v = [] ∧ d v ≠ [] := by
  intro fuel
  induction fuel with
  | zero =>
    intro q d n d1 h
    cases q with
    | nil =>
      simp only [ac3loop, Option.some.injEq, Prod.mk.injEq] at h
      left
      refine ⟨by simpa using h.1.symm, fun v => by rw [← h.2]⟩
    | cons hd tl =>
      simp [ac3loop] at h
  | succ fuel ih =>
    intro q d n d1 h
    cases q with
    | nil =>
      simp only [ac3loop, Option.some.injEq, Prod.mk.injEq] at h
      left
      refine ⟨by simpa using h.1.symm, fun v => by rw [← h.2]⟩
    | cons hd tl =>
      obtain ⟨x, y⟩ := hd
      simp only [ac3loop] at h
      split at h
      · rename_i hr
        split at h
        · rename_i hemp
          simp only [Option.some.injEq, Prod.mk.injEq] at h
          right
          obtain ⟨ix, iy, hov⟩ := revise_true_overlap hr
          refine ⟨x, ?_, ?_⟩
          · rw [← h.2]
            exact List.isEmpty_iff.mp hemp
          · have hlt := revise_true_length hov hr
            intro hdx
            rw [hdx] at hlt
            simp at hlt
        · rcases ih (pushArcs c x tl) ((revise c d x y).2) (n + 1) d1 h with h2 | ⟨v, h2, h3⟩
          · exact absurd h2.1 (Nat.succ_ne_zero n)
          · right
            refine ⟨v, h2, ?_⟩
            intro hdv
            have hsub := revise_sublist c d x y v
            rw [hdv] at hsub
            exact h3 (List.sublist_nil.mp hsub)
      · exact ih tl d n d1 h

/-! ### Checked character accesses in `revise` -/

theorem findSupportChecked_eq (iy : Nat) (ch : Char) :
    ∀ (dy : List Word), (∀ w ∈ dy, iy < w.length) →
      findSupportChecked dy iy ch = some (dy.any (fun u => u.getD iy ' ' == ch)) := by
  intro dy
  induction dy with
  | nil =>
    intro h
    simp [findSupportChecked]
  | cons wy rest ih =>
    intro h
    have hlt : iy < wy.length := h wy (List.mem_cons_self _ _)
    have hg : wy.get? iy = some (wy.get ⟨iy, hlt⟩) := List.get?_eq_get hlt
    have hgetD : wy.getD iy ' ' = wy.get ⟨iy, hlt⟩ := by
      rw [List.getD_eq_get?, hg]
      rfl
    rw [show findSupportChecked (wy :: rest) iy ch
        = (match wy.get? iy with
           | none => none
           | some c2 => if c2 == ch then some true else findSupportChecked rest iy ch)
      from rfl]
    rw [hg]
    dsimp only
    rcases hc : (wy.get ⟨iy, hlt⟩ == ch) with _ | _
    · rw [if_neg (by simp [hc]), ih (fun w hw => h w (List.mem_cons_of_mem _ hw)),
        List.any_cons, hgetD, hc, Bool.false_or]
    · rw [if_pos (by simp [hc]), List.any_cons, hgetD, hc, Bool.true_or]

theorem toRemoveChecked_eq (ix iy : Nat) (dy : List Word)
    (hy : ∀ w ∈ dy, iy < w.length) :
    ∀ (dx : List Word), (∀ w ∈ dx, ix < w.length) →
      toRemoveChecked dx dy ix iy =
        some (dx.filter (fun wx => !(dy.any (fun wy => wy.getD iy ' ' == wx.getD ix ' ')))) := by
  intro dx
  induction dx with
  | nil =>
    intro h
    simp [toRemoveChecked]
  | cons wx rest ih =>
    intro h
    have hlt : ix < wx.length := h wx (List.mem_cons_self _ _)
    have hg : wx.get? ix = some (wx.get ⟨ix, hlt⟩) := List.get?_eq_get hlt
    have hgetD : wx.getD ix ' ' = wx.get ⟨ix, hlt⟩ := by
      rw [List.getD_eq_get?, hg]
      rfl
    rw [show toRemoveChecked (wx :: rest) dy ix iy
        = (match wx.get? ix with
           | none => none
           | some ch =>
             match findSupportChecked dy iy ch with
             | none => none
             | some true => toRemoveChecked rest dy ix iy
             | some false => (toRemoveChecked rest dy ix iy).map (fun l => wx :: l))
      from rfl]
    rw [hg]
    dsimp only
    rw [findSupportChecked_eq iy _ dy hy]
    have ihr := ih (fun w hw => h w (List.mem_cons_of_mem _ hw))
    have hpx : (dy.any fun wy => wy.getD iy ' ' == wx.getD ix ' ')
        = (dy.any fun u => u.getD iy ' ' == wx.get ⟨ix, hlt⟩) := by
      simp only [hgetD]
    rcases ha : (dy.any fun u => u.getD iy ' ' == wx.get ⟨ix, hlt⟩) with _ | _
    · dsimp only
      rw [ihr, Option.map_some', List.filter_cons]
      have hcond : (!(dy.any fun wy => wy.getD iy ' ' == wx.getD ix ' ')) = true := by
        rw [hpx, ha]
        rfl
      rw [hcond, if_pos rfl]
    · dsimp only
      rw [ihr, List.filter_cons]
      have hcond : (!(dy.any fun wy => wy.getD iy ' ' == wx.getD ix ' ')) = false := by
        rw [hpx, ha]
        rfl
      rw [hcond, if_neg (by simp)]

theorem reviseChecked_eq {c : Crossword} {d : Domains} {x y : Variable} {ix iy : Nat}
    (h : c.overlaps x y = some (ix, iy))
    (hx : ∀ w ∈ d x, ix < w.length) (hy : ∀ w ∈ d y, iy < w.length) :
    reviseChecked c d x y = some (revise c d x y) := by
  unfold reviseChecked revise
  rw [h]
  dsimp only
  rw [toRemoveChecked_eq ix iy (d y) hy (d x) hx]
  rfl

/-! ### Assignments and the backtracking search -/

theorem lookup_mem {a : Assignment} {v : Variable} {w : Word}
    (h : assignLookup a v = some w) : (v, w) ∈ a := by
  unfold assignLookup at h
  rcases hf : a.find? (fun kv => kv.1 == v) with _ | kv
  · rw [hf] at h
    simp at h
  · rw [hf] at h
    simp only [Option.map_some'] at h
    have hps := List.find?_some hf
    simp only [beq_iff_eq] at hps
    have h1 : kv.1 = v := hps
    have h2 : kv.2 = w := Option.some.inj h
    have h3 := List.mem_of_find?_eq_some hf
    rw [show (v, w) = kv from by rw [← h1, ← h2]]
    exact h3

theorem lookup_isSome_of_mem {a : Assignment} {v : Variable} {w : Word}
    (h : (v, w) ∈ a) : ∃ u, assignLookup a v = some u := by
  rcases hl : assignLookup a v with _ | u
  · exfalso
    unfold assignLookup at hl
    rw [Option.map_eq_none'] at hl
    have h2 := List.find?_eq_none.mp hl (v, w) h
    simp at h2
  · exact ⟨u, rfl⟩

theorem lookup_none_of_not_mem {a : Assignment} {v : Variable}
    (h : ∀ kv ∈ a, kv.1 ≠ v) : assignLookup a v = none := by
  unfold assignLookup
  rw [List.find?_eq_none.mpr]
  · rfl
  · intro kv hkv
    simp only [beq_iff_eq]
    exact h kv hkv

theorem goodAssign_insert {c : Crossword} {a : Assignment} {v : Variable} {w : Word}
    (hv : v ∈ c.vars) (hg : goodAssign c a) : goodAssign c (dictInsert a v w) := by
  unfold dictInsert
  split
  · constructor
    · have hkeys : ((a.map (fun kv => if kv.1 == v then (v, w) else kv)).map Prod.fst)
          = a.map Prod.fst := by
        rw [List.map_map]
        apply List.map_congr_left
        intro kv hkv
        by_cases h1 : kv.1 = v
        · simp [h1]
        · simp [h1]
      rw [hkeys]
      exact hg.1
    · intro kv hkv
      obtain ⟨kv0, hkv0, heq⟩ := List.mem_map.mp hkv
      by_cases h1 : kv0.1 = v
      · rw [← heq]
        simp only [h1, beq_self_eq_true, if_true]
        rw [← h1]
        exact hg.2 kv0 hkv0
      · rw [← heq]
        simp only [beq_iff_eq, h1, if_false]
        exact hg.2 kv0 hkv0
  · rename_i hany
    have hnot : ∀ kv ∈ a, kv.1 ≠ v := by
      intro kv hkv hkv1
      exact hany (List.any_eq_true.mpr ⟨kv, hkv, beq_iff_eq.mpr hkv1⟩)
    constructor
    · rw [List.map_append]
      rw [List.nodup_append]
      refine ⟨hg.1, List.nodup_singleton v, ?_⟩
      intro u hu hv2
      simp only [List.map_cons, List.map_nil, List.mem_singleton] at hv2
      obtain ⟨kv, hkv, heq⟩ := List.mem_map.mp hu
      exact hnot kv hkv (heq.trans hv2)
    · intro kv hkv
      rcases List.mem_append.mp hkv with h1 | h1
      · exact hg.2 kv h1
      · simp only [List.mem_singleton] at h1
        rw [h1]
        exact hv

theorem goodAssign_remove {c : Crossword} {a : Assignment} {v : Variable}
    (hg : goodAssign c a) : goodAssign c (dictRemove a v) := by
  unfold dictRemove
  constructor
  · exact hg.1.sublist ((List.filter_sublist a).map Prod.fst)
  · intro kv hkv
    exact hg.2 kv (List.mem_of_mem_filter hkv)

theorem getLast?_mem {α : Type} {l : List α} {a : α} (h : l.getLast? = some a) :
    a ∈ l := by
  obtain ⟨h2, h3⟩ := List.mem_getLast?_eq_getLast (show a ∈ l.getLast? from h)
  rw [h3]
  exact List.getLast_mem h2

theorem selectFold_mem (d : Domains) (a : Assignment) :
    ∀ (l : List Variable) (st : Option Nat × List Variable) (u : Variable),
      u ∈ (l.foldl (fun (st : Option Nat × List Variable) var =>
        if (assignLookup a var).isSome then st
        else
          match st.1 with
          | none => (some (d var).length, st.2 ++ [var])
          | some m =>
            if (d var).length < m then (some (d var).length, st.2 ++ [var]) else st) st).2 →
      u ∈ st.2 ∨ u ∈ l := by
  intro l
  induction l with
  | nil =>
    intro st u hu
    exact Or.inl hu
  | cons b l ih =>
    intro st u hu
    rw [List.foldl_cons] at hu
    rcases ih _ u hu with h1 | h1
    · split at h1
      · exact Or.inl h1
      · split at h1
        · rcases List.mem_append.mp h1 with h2 | h2
          · exact Or.inl h2
          · simp only [List.mem_singleton] at h2
            exact Or.inr (h2 ▸ List.mem_cons_self b l)
        · split at h1
          · rcases List.mem_append.mp h1 with h2 | h2
            · exact Or.inl h2
            · simp only [List.mem_singleton] at h2
              exact Or.inr (h2 ▸ List.mem_cons_self b l)
          · exact Or.inl h1
    · exact Or.inr (List.mem_cons_of_mem b h1)

theorem select_mem {c : Crossword} {d : Domains} {a : Assignment} {v : Variable}
    (h : select_unassigned_variable c d a = some v) : v ∈ c.vars := by
  unfold select_unassigned_variable at h
  have h2 := selectFold_mem d a c.vars (none, []) v (getLast?_mem h)
  rcases h2 with h3 | h3
  · exact absurd h3 (List.not_mem_nil v)
  · exact h3

theorem consistentAux_length (c : Crossword) (full : Assignment) :
    ∀ (l : List (Variable × Word)) (vals : List Word),
      consistentAux c full l vals = true → ∀ kv ∈ l, kv.1.length = kv.2.length := by
  intro l
  induction l with
  | nil =>
    intro vals h kv hkv
    exact absurd hkv (List.not_mem_nil _)
  | cons hd tl ih =>
    intro vals h kv hkv
    obtain ⟨v, w⟩ := hd
    simp only [consistentAux] at h
    split at h
    · simp at h
    · split at h
      · simp at h
      · rename_i hcont hlen
        split at h
        · rcases List.mem_cons.mp hkv with heq | hkv2
          · rw [heq]
            simp only [Bool.not_eq_true, Bool.not_eq_false'] at hlen
            exact beq_iff_eq.mp hlen
          · exact ih (w :: vals) h kv hkv2
        · simp at h

theorem consistentAux_values (c : Crossword) (full : Assignment) :
    ∀ (l : List (Variable × Word)) (vals : List Word),
      consistentAux c full l vals = true →
      (l.map Prod.snd).Nodup ∧ ∀ u ∈ vals, u ∉ l.map Prod.snd := by
  intro l
  induction l with
  | nil =>
    intro vals h
    exact ⟨List.nodup_nil, fun u _ => List.not_mem_nil u⟩
  | cons hd tl ih =>
    intro vals h
    obtain ⟨v, w⟩ := hd
    simp only [consistentAux] at h
    split at h
    · simp at h
    · split at h
      · simp at h
      · rename_i hcont hlen
        split at h
        · obtain ⟨hnd, hdisj⟩ := ih (w :: vals) h
          simp only [List.map_cons]
          constructor
          · exact List.nodup_cons.mpr ⟨hdisj w (List.mem_cons_self _ _), hnd⟩
          · intro u hu hmem
            rcases List.mem_cons.mp hmem with heq | hmem2
            · rw [heq] at hu
              exact hcont (contains_eq_mem.mpr hu)
            · exact hdisj u (List.mem_cons_of_mem _ hu) hmem2
        · simp at h

theorem consistentAux_neighbors (c : Crossword) (full : Assignment) :
    ∀ (l : List (Variable × Word)) (vals : List Word),
      consistentAux c full l vals = true →
      ∀ kv ∈ l, neighborsOk c full kv.1 kv.2 = true := by
  intro l
  induction l with
  | nil =>
    intro vals h kv hkv
    exact absurd hkv (List.not_mem_nil _)
  | cons hd tl ih =>
    intro vals h kv hkv
    obtain ⟨v, w⟩ := hd
    simp only [consistentAux] at h
    split at h
    · simp at h
    · split at h
      · simp at h
      · rename_i hcont hlen
        split at h
        · rename_i hnb
          rcases List.mem_cons.mp hkv with heq | hkv2
          · rw [heq]
            exact hnb
          · exact ih (w :: vals) h kv hkv2
        · simp at h

theorem neighborsOk_spec {c : Crossword} {full : Assignment} {v : Variable}
    {w : Word} {n : Variable} {wn : Word} {i j : Nat}
    (h : neighborsOk c full v w = true) (hn : n ∈ c.neighbors v)
    (hlook : assignLookup full n = some wn) (hov : c.overlaps v n = some (i, j)) :
    w.getD i ' ' = wn.getD j ' ' := by
  have h2 := List.all_eq_true.mp h n hn
  simp only [hlook, hov] at h2
  exact beq_iff_eq.mp h2

theorem complete_lookup {c : Crossword} {r : Assignment}
    (hg : goodAssign c r) (hc : assignment_complete c r = true) :
    ∀ v ∈ c.vars, ∃ w, assignLookup r v = some w := by
  have hlen : r.length = c.vars.length := by
    unfold assignment_complete at hc
    exact beq_iff_eq.mp hc
  have hsubp : (r.map Prod.fst).Subperm c.vars := by
    refine hg.1.subperm ?_
    intro u hu
    obtain ⟨kv, hkv, heq⟩ := List.mem_map.mp hu
    rw [← heq]
    exact hg.2 kv hkv
  have hperm : (r.map Prod.fst).Perm c.vars := by
    refine hsubp.perm_of_length_le ?_
    rw [List.length_map, hlen]
  intro v hv
  have hvk : v ∈ r.map Prod.fst := hperm.mem_iff.mpr hv
  obtain ⟨kv, hkv, heq⟩ := List.mem_map.mp hvk
  obtain ⟨u, hu⟩ := lookup_isSome_of_mem (a := r) (v := v) (w := kv.2)
    (by rw [show (v, kv.2) = kv from by rw [← heq]]; exact hkv)
  exact ⟨u, hu⟩

theorem tryValues_invariant (c : Crossword) (var : Variable) (hvar : var ∈ c.vars)
    (bt : Assignment → Option (Option Assignment × Assignment))
    (hbt : ∀ a res, bt a = some res → goodAssign c a →
      goodAssign c res.2 ∧
        ∀ r, res.1 = some r → r = res.2 ∧ assignment_complete c r = true ∧
          (consistent c a = true → consistent c r = true)) :
    ∀ (ws : List Word) (a : Assignment) (res : Option Assignment × Assignment),
      tryValues c var bt ws a = some res → goodAssign c a →
      goodAssign c res.2 ∧
        ∀ r, res.1 = some r → r = res.2 ∧ assignment_complete c r = true ∧
          consistent c r = true := by
  intro ws
  induction ws with
  | nil =>
    intro a res h hg
    simp only [tryValues, Option.some.injEq] at h
    rw [← h]
    exact ⟨hg, fun r hr => by simp at hr⟩
  | cons w ws ih =>
    intro a res h hg
    simp only [tryValues] at h
    split at h
    · rename_i hcons
      split at h
      · simp at h
      · rename_i r a2 heq
        simp only [Option.some.injEq] at h
        obtain ⟨hgood2, hres⟩ := hbt _ _ heq (goodAssign_insert hvar hg)
        obtain ⟨hr2, hcomp2, hcons2⟩ := hres r rfl
        rw [← h]
        refine ⟨hgood2, fun r2 hr3 => ?_⟩
        have : r = r2 := Option.some.inj hr3
        rw [← this]
        exact ⟨hr2, hcomp2, hcons2 hcons⟩
      · rename_i a2 heq
        obtain ⟨hgood2, _⟩ := hbt _ _ heq (goodAssign_insert hvar hg)
        exact ih _ res h (goodAssign_remove hgood2)
    · exact ih _ res h (goodAssign_insert hvar hg)

theorem backtrack_invariant (c : Crossword) (doms : Domains) :
    ∀ (fuel : Nat) (a : Assignment) (res : Option Assignment × Assignment),
      backtrack c doms fuel a = some res → goodAssign c a →
      goodAssign c res.2 ∧
        ∀ r, res.1 = some r → r = res.2 ∧ assignment_complete c r = true ∧
          (consistent c a = true → consistent c r = true) := by
  intro fuel
  induction fuel with
  | zero =>
    intro a res h hg
    simp [backtrack] at h
  | succ fuel ih =>
    intro a res h hg
    simp only [backtrack] at h
    split at h
    · rename_i hcomp
      simp only [Option.some.injEq] at h
      rw [← h]
      refine ⟨hg, fun r hr => ?_⟩
      have h2 : a = r := Option.some.inj hr
      rw [← h2]
      exact ⟨rfl, hcomp, fun hcons => hcons⟩
    · split at h
      · simp only [Option.some.injEq] at h
        rw [← h]
        exact ⟨hg, fun r hr => by simp at hr⟩
      · rename_i var hsel
        have h2 := tryValues_invariant c var (select_mem hsel) (backtrack c doms fuel)
          (fun a2 res2 hb hg2 => ih a2 res2 hb hg2) _ a res h hg
        exact ⟨h2.1, fun r hr =>
          ⟨(h2.2 r hr).1, (h2.2 r hr).2.1, fun _ => (h2.2 r hr).2.2⟩⟩

theorem revise_fst_true_iff {c : Crossword} {d : Domains} {x y : Variable}
    {ix iy : Nat} (h : c.overlaps x y = some (ix, iy)) :
    (revise c d x y).1 = true ↔
      ∃ w ∈ d x, ∀ u ∈ d y, ¬(u.getD iy ' ' = w.getD ix ' ') := by
  rw [revise_some h]
  dsimp only
  rw [Bool.not_eq_true', List.isEmpty_eq_false]
  constructor
  · intro hne
    obtain ⟨w, hw⟩ := List.exists_mem_of_ne_nil _ hne
    have hw2 := List.mem_filter.mp hw
    refine ⟨w, hw2.1, ?_⟩
    intro u hu heq
    have h3 := hw2.2
    simp only [Bool.not_eq_true'] at h3
    have h4 : (d y).any (fun wy => wy.getD iy ' ' == w.getD ix ' ') = true :=
      List.any_eq_true.mpr ⟨u, hu, beq_iff_eq.mpr heq⟩
    exact Bool.false_ne_true (h3 ▸ h4)
  · rintro ⟨w, hw, hnosup⟩ hnil
    have h5 := List.filter_eq_nil_iff.mp hnil w hw
    simp only [Bool.not_eq_true', Bool.not_eq_false] at h5
    obtain ⟨u, hu, hbeq⟩ := List.any_eq_true.mp h5
    exact hnosup u hu (beq_iff_eq.mp hbeq)

/-! ### The claims -/

/-- Claim C1: a failing `backtrack` call is expected to leave the assignment
exactly as it was at the call, with failure at the root leaving it empty; on
the crossword `exC` over the domains `exDoms` the root call from the empty
assignment fails and yet leaves three residual entries, because a value that
fails the consistency check is never deleted (the `del` sits inside the
consistent branch only). -/
theorem backtrack_residual_assignment :
    backtrack exC exDoms 10 [] = some (none, [(vC, wAA), (vB, wDD), (vA, wDD)]) ∧
    ([(vC, wAA), (vB, wDD), (vA, wDD)] : Assignment) ≠ [] := by
  decide

/-- Claim C2: `backtrack` from the empty assignment is expected to return a
complete consistent assignment whenever one exists over the post-propagation
domains; over `exDoms` (which node consistency and the all-arcs `ac3` leave
unchanged) the assignment `exSol` is complete, consistent and drawn from the
domains, yet the search reports failure, blocked by the residual entries of
claim C1. -/
theorem backtrack_misses_solution :
    (backtrack exC exDoms 10 []).map Prod.fst = some none ∧
    assignment_complete exC exSol = true ∧
    consistent exC exSol = true ∧
    (exC.vars.all fun v => (exDoms v).contains ((assignLookup exSol v).getD [])) = true ∧
    (exC.vars.all fun v =>
      ac3doms exC 10 none (enforce_node_consistency exDoms) v == exDoms v) = true := by
  decide

/-- Claim C3: every assignment the search returns as a solution - starting
from any reachable consistent assignment, in particular the empty one used by
`solve` - assigns exactly one word to every crossword variable, each word
having the variable's length, overlapped characters agreeing, and no word
assigned to two different variables. -/
theorem backtrack_solution_valid (c : Crossword) (doms : Domains) (fuel : Nat)
    (a r s : Assignment) (hwf : c.Wf)
    (hkeys : (a.map Prod.fst).Nodup) (hmem : ∀ kv ∈ a, kv.1 ∈ c.vars)
    (hcons : consistent c a = true)
    (h : backtrack c doms fuel a = some (some r, s)) :
    (∀ v ∈ c.vars, ∃ w, assignLookup r v = some w) ∧
    (∀ v w, assignLookup r v = some w → w.length = v.length) ∧
    (∀ x y wx wy ix iy, assignLookup r x = some wx → assignLookup r y = some wy →
      c.overlaps x y = some (ix, iy) → wx.getD ix ' ' = wy.getD iy ' ') ∧
    (∀ x y wx wy, x ≠ y → assignLookup r x = some wx → assignLookup r y = some wy →
      wx ≠ wy) := by
  obtain ⟨hgood, hres⟩ := backtrack_invariant c doms fuel a (some r, s) h ⟨hkeys, hmem⟩
  obtain ⟨hrs, hcomp, hconsr⟩ := hres r rfl
  have hconsr2 : consistent c r = true := hconsr hcons
  have hca : consistentAux c r r [] = true := hconsr2
  have hgoodr : goodAssign c r := by
    rw [hrs]
    exact hgood
  refine ⟨complete_lookup hgoodr hcomp, ?_, ?_, ?_⟩
  · intro v w hl
    exact (consistentAux_length c r r [] hca (v, w) (lookup_mem hl)).symm
  · intro x y wx wy ix iy hlx hly hov
    have hnb := consistentAux_neighbors c r r [] hca (x, wx) (lookup_mem hlx)
    refine neighborsOk_spec hnb ?_ hly hov
    refine mem_neighbors.mpr ⟨hgoodr.2 (y, wy) (lookup_mem hly), Ne.symm (wf_ne hwf hov), ?_⟩
    rw [wf_symm hwf hov]
    rfl
  · intro x y wx wy hne hlx hly heq
    have hvals := (consistentAux_values c r r [] hca).1
    have h3 := List.inj_on_of_nodup_map hvals (lookup_mem hlx) (lookup_mem hly) heq
    exact absurd (congrArg Prod.fst h3) hne

/-- Witness for claim C3 on the one-slot crossword `c3C`. -/
theorem backtrack_solution_valid_witness :
    c3C.Wf ∧ consistent c3C [] = true ∧
    backtrack c3C d3 3 [] = some (some [(vP, wCAT)], [(vP, wCAT)]) ∧
    (∀ v ∈ c3C.vars, ∃ w, assignLookup [(vP, wCAT)] v = some w) := by
  refine ⟨by decide, by decide, by decide, ?_⟩
  exact (backtrack_solution_valid c3C d3 3 [] [(vP, wCAT)] [(vP, wCAT)]
    (by decide) (by decide) (by decide) (by decide) (by decide)).1

/-- Claim C4: when the default all-arcs `ac3` run terminates with no variable
domain left empty, every ordered pair of variables with a defined overlap is
arc consistent in the resulting domains: each remaining word of the first
domain has a supporting word in the second at the overlap indices. -/
theorem ac3_arc_consistent (c : Crossword) (fuel : Nat) (d0 : Domains)
    (hwf : c.Wf)
    (hrun : (ac3 c fuel none d0).isSome = true)
    (hne : ∀ v ∈ c.vars, ac3doms c fuel none d0 v ≠ []) :
    ∀ x y ix iy, c.overlaps x y = some (ix, iy) →
      ∀ w ∈ ac3doms c fuel none d0 x, ∃ u ∈ ac3doms c fuel none d0 y,
        u.getD iy ' ' = w.getD ix ' ' := by
  rcases hres : ac3 c fuel none d0 with _ | ⟨bb, d1⟩
  · rw [hres] at hrun
    simp at hrun
  · have hd : ac3doms c fuel none d0 = d1 := by
      unfold ac3doms
      rw [hres]
    rw [hd] at hne ⊢
    intro x y ix iy hov
    have hinv : ∀ x2 y2 ix2 iy2, c.overlaps x2 y2 = some (ix2, iy2) →
        (x2, y2) ∈ allArcs c ∨ supported d0 x2 y2 ix2 iy2 := by
      intro x2 y2 ix2 iy2 ho2
      left
      refine mem_allArcs.mpr ⟨y2, wf_memR hwf ho2, x2, ?_, Or.inl rfl⟩
      refine mem_neighbors.mpr ⟨wf_memL hwf ho2, wf_ne hwf ho2, ?_⟩
      rw [ho2]
      rfl
    have hres2 : ac3loop c fuel (allArcs c) d0 0 = some (bb, d1) := hres
    exact ac3loop_sound c hwf fuel (allArcs c) d0 0 bb d1 hinv hres2 hne x y ix iy hov

/-- Witness for claim C4 on the crossing CAT/TIE/DOG slots. -/
theorem ac3_arc_consistent_witness :
    c4C.Wf ∧ (ac3 c4C 20 none d4).isSome = true ∧
    (∀ v ∈ c4C.vars, ac3doms c4C 20 none d4 v ≠ []) ∧
    (∀ w ∈ ac3doms c4C 20 none d4 vP, ∃ u ∈ ac3doms c4C 20 none d4 vQ,
      u.getD 1 ' ' = w.getD 1 ' ') := by
  refine ⟨by decide, by decide, by decide, ?_⟩
  exact ac3_arc_consistent c4C 20 d4 (by decide) (by decide) (by decide) vP vQ 1 1
    (by decide)

/-- Claim C5: any complete assignment that matches every variable's length,
draws each word from the given domains, and agrees on every overlap survives
node consistency followed by the all-arcs `ac3`: propagation never prunes a
word used by a solution. -/
theorem propagation_preserves_solutions (c : Crossword) (fuel : Nat)
    (d0 : Domains) (f : Variable → Word)
    (hmem : ∀ v ∈ c.vars, f v ∈ d0 v)
    (hlen : ∀ v ∈ c.vars, (f v).length = v.length)
    (hagree : ∀ x ∈ c.vars, ∀ y ∈ c.vars,
      ((c.overlaps x y).all fun p => (f x).getD p.1 ' ' == (f y).getD p.2 ' ') = true) :
    ∀ v ∈ c.vars, f v ∈ ac3doms c fuel none (enforce_node_consistency d0) v := by
  have hmem1 : ∀ v ∈ c.vars, f v ∈ enforce_node_consistency d0 v := by
    intro v hv
    unfold enforce_node_consistency
    exact List.mem_filter.mpr ⟨hmem v hv, beq_iff_eq.mpr (hlen v hv).symm⟩
  rcases hres : ac3 c fuel none (enforce_node_consistency d0) with _ | ⟨bb, d1⟩
  · unfold ac3doms
    rw [hres]
    exact hmem1
  · have hd : ac3doms c fuel none (enforce_node_consistency d0) = d1 := by
      unfold ac3doms
      rw [hres]
    rw [hd]
    have hq : ∀ p ∈ allArcs c, p.1 ∈ c.vars ∧ p.2 ∈ c.vars := by
      intro p hp
      obtain ⟨v, hv, n, hn, heq | heq⟩ := mem_allArcs.mp hp
      · rw [heq]
        exact ⟨(mem_neighbors.mp hn).1, hv⟩
      · rw [heq]
        exact ⟨hv, (mem_neighbors.mp hn).1⟩
    have hres2 : ac3loop c fuel (allArcs c) (enforce_node_consistency d0) 0
        = some (bb, d1) := hres
    exact ac3loop_preserves c f hagree fuel (allArcs c) _ 0 bb d1 hq hmem1 hres2

/-- Witness for claim C5: the all-CAT assignment on the crossing slots. -/
theorem propagation_preserves_solutions_witness :
    (∀ v ∈ c4C.vars, f4 v ∈ d4 v) ∧
    (∀ v ∈ c4C.vars, (f4 v).length = v.length) ∧
    (∀ v ∈ c4C.vars, f4 v ∈ ac3doms c4C 20 none (enforce_node_consistency d4) v) := by
  refine ⟨by decide, by decide, ?_⟩
  exact propagation_preserves_solutions c4C 20 d4 f4 (by decide) (by decide) (by decide)

/-- Claim C6: with a defined overlap `(ix, iy)`, `revise(x, y)` removes from
the domain of `x` exactly the words with no supporting word in the domain of
`y`, leaves the domain of `y` (and of every other variable) unchanged, and
returns `true` iff at least one word was removed; with no defined overlap it
changes nothing and returns `false`. -/
theorem revise_spec (c : Crossword) (d : Domains) (x y : Variable) (hwf : c.Wf) :
    (c.overlaps x y = none → revise c d x y = (false, d)) ∧
    (∀ ix iy, c.overlaps x y = some (ix, iy) →
      ((revise c d x y).2 x = (d x).filter
        (fun wx => (d y).any (fun wy => wy.getD iy ' ' == wx.getD ix ' '))) ∧
      ((revise c d x y).2 y = d y) ∧
      (∀ v, v ≠ x → (revise c d x y).2 v = d v) ∧
      ((revise c d x y).1 = true ↔
        ∃ w ∈ d x, ∀ u ∈ d y, ¬(u.getD iy ' ' = w.getD ix ' '))) := by
  refine ⟨fun h => revise_none h, fun ix iy h => ⟨revise_snd_x h, ?_,
    fun v hv => revise_snd_ne h hv, revise_fst_true_iff h⟩⟩
  exact revise_snd_ne h (Ne.symm (wf_ne hwf h))

/-- Witness for claim C6 on the crossing slots with prunable domains. -/
theorem revise_spec_witness :
    c4C.Wf ∧ c4C.overlaps vP vQ = some (1, 1) ∧
    (revise c4C d5 vP vQ).2 vP = (d5 vP).filter
      (fun wx => (d5 vQ).any (fun wy => wy.getD 1 ' ' == wx.getD 1 ' ')) ∧
    (revise c4C d5 vP vQ).2 vQ = d5 vQ := by
  refine ⟨by decide, by decide, ?_, ?_⟩
  · exact ((revise_spec c4C d5 vP vQ (by decide)).2 1 1 (by decide)).1
  · exact ((revise_spec c4C d5 vP vQ (by decide)).2 1 1 (by decide)).2.1

/-- Claim C7 counterexample: on `c7C` the first revision empties the domain of
`vX`, and `ac3` returns `false` although a domain changed during the run -
contradicting that the return value equals "some domain changed" even when a
domain becomes empty. -/
theorem ac3_false_despite_change :
    ac3flag c7C 10 none d7 = some false ∧ ac3doms c7C 10 none d7 vX ≠ d7 vX := by
  decide

/-- Claim C7 (amended): a `true` return of `ac3` does mean some domain
changed, but a `false` return means either that nothing changed at all or
that a revision emptied a previously non-empty domain (the early failure
exit); the return value therefore does not simply equal "some domain
changed". -/
theorem ac3_return_characterization (c : Crossword) (fuel : Nat)
    (arcs : Option (List (Variable × Variable))) (d0 : Domains) :
    (ac3flag c fuel arcs d0 = some true →
      ∃ v, (ac3doms c fuel arcs d0 v).length < (d0 v).length) ∧
    (ac3flag c fuel arcs d0 = some false →
      (∀ v, ac3doms c fuel arcs d0 v = d0 v) ∨
      (∃ v, ac3doms c fuel arcs d0 v = [] ∧ d0 v ≠ [])) := by
  constructor
  · intro h
    unfold ac3flag at h
    rcases hres : ac3 c fuel arcs d0 with _ | ⟨bb, d1⟩
    · rw [hres] at h
      simp at h
    · rw [hres] at h
      simp only [Option.map_some'] at h
      have hb : bb = true := Option.some.inj h
      have hd : ac3doms c fuel arcs d0 = d1 := by
        unfold ac3doms
        rw [hres]
      rw [hd]
      rw [hb] at hres
      unfold ac3 at hres
      rcases ac3loop_flag_true c fuel _ d0 0 d1 hres with hn | hex
      · exact absurd rfl hn
      · exact hex
  · intro h
    unfold ac3flag at h
    rcases hres : ac3 c fuel arcs d0 with _ | ⟨bb, d1⟩
    · rw [hres] at h
      simp at h
    · rw [hres] at h
      simp only [Option.map_some'] at h
      have hb : bb = false := Option.some.inj h
      have hd : ac3doms c fuel arcs d0 = d1 := by
        unfold ac3doms
        rw [hres]
      rw [hd]
      rw [hb] at hres
      unfold ac3 at hres
      rcases ac3loop_flag_false c fuel _ d0 0 d1 hres with hsame | hex
      · exact Or.inl hsame.2
      · exact Or.inr hex

/-- Witness for the amended claim C7: a pruning, non-failing run. -/
theorem ac3_return_characterization_witness :
    ac3flag c4C 20 none d5 = some true ∧
    ∃ v, (ac3doms c4C 20 none d5 v).length < (d5 v).length := by
  refine ⟨by decide, ?_⟩
  exact (ac3_return_characterization c4C 20 none d5).1 (by decide)

/-- Claim C8: `select_unassigned_variable` is documented to break ties on the
minimum domain size by the higher degree; on `c8C` with the singleton domains
`d8` and `vC` already assigned, the unassigned variables `vA` and `vB` tie on
domain size, `vB` has strictly larger degree, yet the code returns `vA` - the
degree tie-break is not implemented. -/
theorem select_ignores_degree :
    select_unassigned_variable c8C d8 [(vC, wCC)] = some vA ∧
    assignLookup [(vC, wCC)] vA = none ∧
    assignLookup [(vC, wCC)] vB = none ∧
    (d8 vA).length = (d8 vB).length ∧
    (c8C.neighbors vA).length < (c8C.neighbors vB).length := by
  decide

/-- Claim C9: after node consistency every domain word has exactly its
variable's length; node consistency, `revise` and `ac3` only ever remove
words (each resulting domain is a sublist of its input), so the length
invariant is preserved by all subsequent propagation - and the search never
mutates the domain store at all. -/
theorem domains_length_invariant (c : Crossword) :
    (∀ d : Domains, ∀ v w, w ∈ enforce_node_consistency d v → w.length = v.length) ∧
    (∀ d : Domains, ∀ v, (enforce_node_consistency d v).Sublist (d v)) ∧
    (∀ d : Domains, ∀ x y v, ((revise c d x y).2 v).Sublist (d v)) ∧
    (∀ fuel arcs d bb d1, ac3 c fuel arcs d = some (bb, d1) →
      ∀ v, (d1 v).Sublist (d v)) ∧
    (∀ fuel arcs d bb d1, (∀ v w, w ∈ d v → w.length = v.length) →
      ac3 c fuel arcs d = some (bb, d1) → ∀ v w, w ∈ d1 v → w.length = v.length) := by
  refine ⟨?_, ?_, ?_, ?_, ?_⟩
  · intro d v w hw
    unfold enforce_node_consistency at hw
    exact (beq_iff_eq.mp (List.mem_filter.mp hw).2).symm
  · intro d v
    exact List.filter_sublist _
  · intro d x y v
    exact revise_sublist c d x y v
  · intro fuel arcs d bb d1 h v
    unfold ac3 at h
    exact ac3loop_sublist c fuel _ d 0 bb d1 h v
  · intro fuel arcs d bb d1 hlen h v w hw
    unfold ac3 at h
    exact hlen v w ((ac3loop_sublist c fuel _ d 0 bb d1 h v).subset hw)

/-- Witness for claim C9 on the node-consistent domains of `c4C`. -/
theorem domains_length_invariant_witness :
    wCAT ∈ enforce_node_consistency d4 vP ∧ wCAT.length = vP.length := by
  refine ⟨by decide, ?_⟩
  exact (domains_length_invariant c4C).1 d4 vP wCAT (by decide)

/-- Claim C10: `revise` indexes candidate words at the overlap positions with
no bounds check; under the precondition that every word of the two domains is
longer than the respective overlap index - established by node consistency
together with a well-formed overlap relation - the raw-indexing model never
reaches the out-of-range branch and agrees with `revise`, while on raw,
unfiltered domains the out-of-range branch is reachable: on `c4C` with the
unfiltered store `dRaw` the raw-indexing `reviseChecked` fails. -/
theorem revise_index_precondition :
    (∀ (c : Crossword) (d : Domains) (x y : Variable) (ix iy : Nat),
      c.overlaps x y = some (ix, iy) →
      (∀ w ∈ d x, ix < w.length) → (∀ w ∈ d y, iy < w.length) →
      reviseChecked c d x y = some (revise c d x y)) ∧
    (reviseChecked c4C dRaw vP vQ).isSome = false := by
  constructor
  · intro c d x y ix iy h hx hy
    exact reviseChecked_eq h hx hy
  · decide

/-- Witness for claim C10 on the node-consistent domains of `c4C`. -/
theorem revise_index_precondition_witness :
    c4C.overlaps vP vQ = some (1, 1) ∧
    (∀ w ∈ d4 vP, 1 < w.length) ∧ (∀ w ∈ d4 vQ, 1 < w.length) ∧
    reviseChecked c4C d4 vP vQ = some (revise c4C d4 vP vQ) := by
  refine ⟨by decide, by decide, by decide, ?_⟩
  exact revise_index_precondition.1 c4C d4 vP vQ 1 1 (by decide) (by decide) (by decide)
